import Mathlib

/-!
# Verification of the haystack search-engine core

Shallow embedding of the C++ core (`src/core/tokenizer.cpp`,
`src/core/inverted_index.cpp`, `src/core/query_parser.cpp`,
`src/core/snippet.cpp`, `src/core/search_service.cpp`) and proofs of the
behavioural claims about it.

Modelling conventions:
* C++ `std::string` is a byte sequence; we model text as `List Nat`
  (one `Nat` per byte).  `str` converts an ASCII literal for examples.
* `unordered_map` is modelled as an association list in unspecified order;
  the well-formedness predicates record the map invariant (distinct keys).
* `double` arithmetic is modelled over `ℚ`; the C library function
  `std::log` is an uninterpreted parameter `log : ℚ → ℚ` of the scoring
  functions (none of the proved properties depend on its values, and
  counterexamples instantiate it explicitly).
* C++ exceptions are modelled with `Except String`; functions that can
  throw while mutating state return the pair (outcome, post-state), where
  the post-state on an error is the heap content at the moment of the
  throw, exactly as transcribed from the statement order of the source.
* The filesystem is modelled as `String → Option FileContent`; the JSON
  encodings produced by jsoncpp are kept at structured-value granularity
  (the encoder is deterministic and injective, so structural equality of
  `FileContent` coincides with byte equality of the encoded files).
-/

/-! ## Tokenizer (`src/core/tokenizer.cpp`) -/

/-- `std::isalnum` in the C locale on an unsigned char: ASCII digits and
letters only. -/
def isAlnumByte (c : Nat) : Bool :=
  (48 ≤ c && c ≤ 57) || (65 ≤ c && c ≤ 90) || (97 ≤ c && c ≤ 122)

/-- `std::tolower` in the C locale: fold ASCII uppercase to lowercase. -/
def toLowerByte (c : Nat) : Nat :=
  if 65 ≤ c && c ≤ 90 then c + 32 else c

/-- Worker loop of `tokenize`: `cur` is the current token accumulated in
reverse; every non-alphanumeric byte flushes it. -/
def tokenizeAux : List Nat → List Nat → List (List Nat)
  | [], cur => if cur = [] then [] else [cur.reverse]
  | c :: rest, cur =>
    if isAlnumByte c then tokenizeAux rest (toLowerByte c :: cur)
    else if cur = [] then tokenizeAux rest []
    else cur.reverse :: tokenizeAux rest []

/-- `tokenize` from `tokenizer.cpp`: maximal runs of ASCII alphanumeric
bytes, lowercased; empty tokens are not emitted. -/
def tokenize (text : List Nat) : List (List Nat) :=
  tokenizeAux text []

/-- Bytes of an ASCII string literal (used only to write concrete inputs
readably). -/
def str (s : String) : List Nat :=
  s.toList.map Char.toNat

/-! ## Generic sorting (model of `std::sort`)

`std::sort` receives a strict weak order; on the orders used by this code
(which are strict total orders on the sorted data) the sorted sequence is
unique, so a deterministic insertion sort is a faithful model. -/

/-- Insert `x` into `l` before the first element `y` with `r x y`. -/
def insertBy (r : α → α → Bool) (x : α) : List α → List α
  | [] => [x]
  | y :: ys => if r x y then x :: y :: ys else y :: insertBy r x ys

/-- Sort by the strict comparator `r` (model of `std::sort`). -/
def sortBy (r : α → α → Bool) (l : List α) : List α :=
  l.foldr (insertBy r) []

theorem insertBy_perm (r : α → α → Bool) (x : α) (l : List α) :
    List.Perm (insertBy r x l) (x :: l) := by
  induction l with
  | nil => simp [insertBy]
  | cons y ys ih =>
    unfold insertBy
    by_cases h : r x y
    · simp [h]
    · simp only [h, if_neg, Bool.false_eq_true, not_false_eq_true, if_false]
      exact ((ih.cons y).trans (List.Perm.swap x y ys))

theorem sortBy_perm (r : α → α → Bool) (l : List α) :
    List.Perm (sortBy r l) l := by
  induction l with
  | nil => simp [sortBy]
  | cons y ys ih =>
    simpa [sortBy] using (insertBy_perm r y (sortBy r ys)).trans (ih.cons y)

theorem mem_sortBy {r : α → α → Bool} {l : List α} {x : α} :
    x ∈ sortBy r l ↔ x ∈ l :=
  (sortBy_perm r l).mem_iff

theorem insertBy_pairwise (r : α → α → Bool)
    (asym : ∀ a b, r a b = true → r b a = false)
    (tr : ∀ a b c, r a b = true → r b c = true → r a c = true)
    (x : α) (l : List α) (hl : l.Pairwise (fun a b => r b a = false)) :
    (insertBy r x l).Pairwise (fun a b => r b a = false) := by
  induction l with
  | nil => simp [insertBy]
  | cons y ys ih =>
    rcases List.pairwise_cons.mp hl with ⟨hy, hys⟩
    unfold insertBy
    by_cases h : r x y
    · simp only [h, if_pos]
      refine List.pairwise_cons.mpr ⟨?_, hl⟩
      intro z hz
      rcases List.mem_cons.mp hz with hzy | hz'
      · rw [hzy]; exact asym x y h
      · by_contra hzx
        have hzx' : r z x = true := by
          cases hzx'' : r z x with
          | false => exact absurd hzx'' hzx
          | true => rfl
        have : r z y = true := tr z x y hzx' h
        rw [hy z hz'] at this
        exact Bool.false_ne_true this
    · simp only [h, if_neg, Bool.false_eq_true, not_false_eq_true, if_false]
      refine List.pairwise_cons.mpr ⟨?_, ih hys⟩
      intro z hz
      rcases List.mem_cons.mp ((insertBy_perm r x ys).mem_iff.mp hz) with hzx | hz'
      · rw [hzx]; exact Bool.eq_false_iff.mpr h
      · exact hy z hz'

theorem sortBy_pairwise (r : α → α → Bool)
    (asym : ∀ a b, r a b = true → r b a = false)
    (tr : ∀ a b c, r a b = true → r b c = true → r a c = true)
    (l : List α) :
    (sortBy r l).Pairwise (fun a b => r b a = false) := by
  induction l with
  | nil => simp [sortBy]
  | cons y ys ih => exact insertBy_pairwise r asym tr y (sortBy r ys) ih

/-! ## Association lists (model of `std::unordered_map`) -/

/-- `unordered_map::find`: first binding of key `d`. -/
def assocFind [DecidableEq κ] : List (κ × ν) → κ → Option ν
  | [], _ => none
  | (k, v) :: rest, d => if k = d then some v else assocFind rest d

/-- Keys of the association list. -/
def keysOf (l : List (κ × ν)) : List κ :=
  l.map Prod.fst

theorem assocFind_eq_some_iff_of_nodup [DecidableEq κ] {l : List (κ × ν)}
    (h : (keysOf l).Nodup) {d : κ} {v : ν} :
    assocFind l d = some v ↔ (d, v) ∈ l := by
  induction l with
  | nil => simp [assocFind]
  | cons p rest ih =>
    obtain ⟨k, w⟩ := p
    simp only [keysOf, List.map_cons, List.nodup_cons] at h
    obtain ⟨hk, hrest⟩ := h
    by_cases hkd : k = d
    · subst hkd
      have hfind : assocFind ((k, w) :: rest) k = some w := by simp [assocFind]
      rw [hfind]
      constructor
      · intro hv
        injection hv with hv
        subst hv
        exact List.mem_cons_self _ _
      · intro hv
        rcases List.mem_cons.mp hv with hv | hv
        · injection hv with h1 h2
          rw [h2]
        · exact absurd (List.mem_map_of_mem Prod.fst hv) hk
    · have hfind : assocFind ((k, w) :: rest) d = assocFind rest d := by
        simp [assocFind, hkd]
      rw [hfind, ih hrest]
      constructor
      · exact fun hv => List.mem_cons_of_mem _ hv
      · intro hv
        rcases List.mem_cons.mp hv with hv | hv
        · exact absurd (congrArg Prod.fst hv).symm hkd
        · exact hv

theorem assocFind_eq_none_iff_of_nodup [DecidableEq κ] {l : List (κ × ν)}
    (h : (keysOf l).Nodup) {d : κ} :
    assocFind l d = none ↔ d ∉ keysOf l := by
  induction l with
  | nil => simp [assocFind, keysOf]
  | cons p rest ih =>
    obtain ⟨k, w⟩ := p
    simp only [keysOf, List.map_cons, List.nodup_cons] at h
    obtain ⟨hk, hrest⟩ := h
    by_cases hkd : k = d
    · subst hkd
      have hfind : assocFind ((k, w) :: rest) k = some w := by simp [assocFind]
      rw [hfind]
      simp [keysOf]
    · have hfind : assocFind ((k, w) :: rest) d = assocFind rest d := by
        simp [assocFind, hkd]
      rw [hfind, ih hrest]
      simp only [keysOf, List.map_cons, List.mem_cons]
      constructor
      · intro hn hd
        rcases hd with hd | hd
        · exact hkd hd.symm
        · exact hn hd
      · intro hn hd
        exact hn (Or.inr hd)

theorem assocFind_congr_perm [DecidableEq κ] {l l' : List (κ × ν)}
    (h : (keysOf l).Nodup) (hp : List.Perm l l') (d : κ) :
    assocFind l d = assocFind l' d := by
  have h' : (keysOf l').Nodup := (hp.map Prod.fst).nodup_iff.mp h
  cases hv : assocFind l' d with
  | some v =>
    exact (assocFind_eq_some_iff_of_nodup h).mpr
      (hp.mem_iff.mpr ((assocFind_eq_some_iff_of_nodup h').mp hv))
  | none =>
    cases hv' : assocFind l d with
    | none => rfl
    | some w =>
      have hmem : (d, w) ∈ l' :=
        hp.mem_iff.mp ((assocFind_eq_some_iff_of_nodup h).mp hv')
      rw [(assocFind_eq_some_iff_of_nodup h').mpr hmem] at hv
      exact absurd hv (by simp)

theorem sorted_mem_eq (r : α → α → Bool)
    (asym : ∀ a b, r a b = true → r b a = false) :
    ∀ (l1 l2 : List α), l1.Pairwise (fun a b => r a b = true) →
      l2.Pairwise (fun a b => r a b = true) →
      (∀ x, x ∈ l1 ↔ x ∈ l2) → l1 = l2 := by
  intro l1
  induction l1 with
  | nil =>
    intro l2 _ _ hmem
    cases l2 with
    | nil => rfl
    | cons y ys => exact absurd ((hmem y).mpr (List.mem_cons_self _ _)) (by simp)
  | cons x xs ih =>
    intro l2 h1 h2 hmem
    cases l2 with
    | nil => exact absurd ((hmem x).mp (List.mem_cons_self _ _)) (by simp)
    | cons y ys =>
      rcases List.pairwise_cons.mp h1 with ⟨hx, hxs⟩
      rcases List.pairwise_cons.mp h2 with ⟨hy, hys⟩
      have hxy : x = y := by
        rcases List.mem_cons.mp ((hmem x).mp (List.mem_cons_self _ _)) with hh | hh
        · exact hh
        · rcases List.mem_cons.mp ((hmem y).mpr (List.mem_cons_self _ _)) with hh' | hh'
          · exact hh'.symm
          · have h1' := hy x hh
            have h2' := hx y hh'
            rw [asym y x h1'] at h2'
            exact absurd h2' (by simp)
      subst hxy
      have htail : ∀ z, z ∈ xs ↔ z ∈ ys := by
        intro z
        constructor
        · intro hz
          rcases List.mem_cons.mp ((hmem z).mp (List.mem_cons_of_mem _ hz)) with hh | hh
          · exfalso
            have hzx := hx z hz
            rw [hh] at hzx
            have hfa := asym x x hzx
            rw [hfa] at hzx
            exact Bool.false_ne_true hzx
          · exact hh
        · intro hz
          rcases List.mem_cons.mp ((hmem z).mpr (List.mem_cons_of_mem _ hz)) with hh | hh
          · exfalso
            have hzx := hy z hz
            rw [hh] at hzx
            have hfa := asym x x hzx
            rw [hfa] at hzx
            exact Bool.false_ne_true hzx
          · exact hh
      rw [ih ys hxs hys htail]

theorem sortBy_pairwise_strict (r : α → α → Bool)
    (asym : ∀ a b, r a b = true → r b a = false)
    (tr : ∀ a b c, r a b = true → r b c = true → r a c = true)
    (total : ∀ a b : α, a ≠ b → r a b = true ∨ r b a = true)
    (l : List α) (h : l.Nodup) :
    (sortBy r l).Pairwise (fun a b => r a b = true) := by
  have h1 := sortBy_pairwise r asym tr l
  have h2 : (sortBy r l).Nodup := ((sortBy_perm r l).nodup_iff).mpr h
  have h3 := List.Pairwise.and h1 h2
  refine h3.imp ?_
  intro a b hab
  rcases total a b hab.2 with hh | hh
  · exact hh
  · rw [hab.1] at hh
    exact absurd hh (by simp)

/-! ## Byte-lexicographic comparison (model of `std::string operator<`,
which compares as unsigned bytes). -/

def byteLt : List Nat → List Nat → Bool
  | [], [] => false
  | [], _ :: _ => true
  | _ :: _, [] => false
  | a :: as, b :: bs => if a < b then true else if b < a then false else byteLt as bs

theorem byteLt_cons (x y : Nat) (xs ys : List Nat) :
    byteLt (x :: xs) (y :: ys) =
      if x < y then true else if y < x then false else byteLt xs ys := rfl

theorem byteLt_asym : ∀ a b, byteLt a b = true → byteLt b a = false := by
  intro a
  induction a with
  | nil =>
    intro b h
    cases b with
    | nil => simp [byteLt] at h
    | cons y ys => simp [byteLt]
  | cons x xs ih =>
    intro b h
    cases b with
    | nil => simp [byteLt] at h
    | cons y ys =>
      rcases Nat.lt_trichotomy x y with hxy | hxy | hxy
      · rw [byteLt_cons, if_neg (by omega), if_pos hxy]
      · subst hxy
        rw [byteLt_cons, if_neg (Nat.lt_irrefl x), if_neg (Nat.lt_irrefl x)] at h ⊢
        exact ih ys h
      · rw [byteLt_cons, if_neg (by omega), if_pos hxy] at h
        exact absurd h (by simp)

theorem byteLt_trans : ∀ a b c, byteLt a b = true → byteLt b c = true →
    byteLt a c = true := by
  intro a
  induction a with
  | nil =>
    intro b c hab hbc
    cases b with
    | nil => simp [byteLt] at hab
    | cons y ys =>
      cases c with
      | nil => simp [byteLt] at hbc
      | cons z zs => simp [byteLt]
  | cons x xs ih =>
    intro b c hab hbc
    cases b with
    | nil => simp [byteLt] at hab
    | cons y ys =>
      cases c with
      | nil => simp [byteLt] at hbc
      | cons z zs =>
        rcases Nat.lt_trichotomy x y with hxy | hxy | hxy
        · rcases Nat.lt_trichotomy y z with hyz | hyz | hyz
          · rw [byteLt_cons, if_pos (Nat.lt_trans hxy hyz)]
          · subst hyz
            rw [byteLt_cons, if_pos hxy]
          · rw [byteLt_cons, if_neg (by omega), if_pos hyz] at hbc
            exact absurd hbc (by simp)
        · subst hxy
          rcases Nat.lt_trichotomy x z with hxz | hxz | hxz
          · rw [byteLt_cons, if_pos hxz]
          · subst hxz
            rw [byteLt_cons, if_neg (Nat.lt_irrefl x), if_neg (Nat.lt_irrefl x)]
              at hab hbc ⊢
            exact ih ys zs hab hbc
          · rw [byteLt_cons, if_neg (by omega), if_pos hxz] at hbc
            exact absurd hbc (by simp)
        · rw [byteLt_cons, if_neg (by omega), if_pos hxy] at hab
          exact absurd hab (by simp)

theorem byteLt_total : ∀ a b : List Nat, a ≠ b →
    byteLt a b = true ∨ byteLt b a = true := by
  intro a
  induction a with
  | nil =>
    intro b hne
    cases b with
    | nil => exact absurd rfl hne
    | cons y ys => exact Or.inl (by simp [byteLt])
  | cons x xs ih =>
    intro b hne
    cases b with
    | nil => exact Or.inr (by simp [byteLt])
    | cons y ys =>
      rcases Nat.lt_trichotomy x y with hxy | hxy | hxy
      · exact Or.inl (by rw [byteLt_cons, if_pos hxy])
      · subst hxy
        have hne' : xs ≠ ys := fun hh => hne (by rw [hh])
        rcases ih ys hne' with hh | hh
        · exact Or.inl (by
            rw [byteLt_cons, if_neg (Nat.lt_irrefl x), if_neg (Nat.lt_irrefl x)]
            exact hh)
        · exact Or.inr (by
            rw [byteLt_cons, if_neg (Nat.lt_irrefl x), if_neg (Nat.lt_irrefl x)]
            exact hh)
      · exact Or.inr (by rw [byteLt_cons, if_pos hxy])

/-! ## Inverted index (`src/core/inverted_index.cpp`)

`index_ : unordered_map<string, unordered_map<int,int>>` is modelled as an
association list of (term, posting map); the posting map is an association
list docId → tf.  New entries are appended at the tail (iteration order of
the C++ map is unspecified; every claim below is insensitive to it). -/

abbrev Term := List Nat
abbrev PostMap := List (Int × Int)
abbrev Index := List (Term × PostMap)

/-- `index_[token][docId]++` on the inner map: default-construct 0, then
increment. -/
def pmBump : PostMap → Int → PostMap
  | [], d => [(d, 1)]
  | (k, v) :: rest, d =>
    if k = d then (k, v + 1) :: rest else (k, v) :: pmBump rest d

/-- `index_[token][docId]++` on the outer map. -/
def idxBump : Index → Term → Int → Index
  | [], t, d => [(t, pmBump [] d)]
  | (u, pm) :: rest, t, d =>
    if u = t then (u, pmBump pm d) :: rest else (u, pm) :: idxBump rest t d

/-- `InvertedIndex::add_document`: bump the (term, docId) cell for each
token occurrence. -/
def InvertedIndex.add_document (idx : Index) (docId : Int) (text : List Nat) :
    Index :=
  (tokenize text).foldl (fun i tok => idxBump i tok docId) idx

def intLt (a b : Int) : Bool := decide (a < b)

/-- `std::pair<int,int>` default `operator<` (lexicographic), used by
`InvertedIndex::postings`. -/
def pairIntLt (a b : Int × Int) : Bool :=
  decide (a.1 < b.1) || (decide (a.1 = b.1) && decide (a.2 < b.2))

/-- Comparator of `InvertedIndex::save` for postings: docId only. -/
def keyLt (a b : Int × Int) : Bool := decide (a.1 < b.1)

/-- `InvertedIndex::search`: sorted docIds of the term, empty if unknown. -/
def InvertedIndex.search (idx : Index) (t : Term) : List Int :=
  match assocFind idx t with
  | none => []
  | some pm => sortBy intLt (keysOf pm)

/-- `InvertedIndex::postings`: (docId, tf) pairs sorted by `std::sort`
with the default pair order. -/
def InvertedIndex.postings (idx : Index) (t : Term) : List (Int × Int) :=
  match assocFind idx t with
  | none => []
  | some pm => sortBy pairIntLt pm

/-- `InvertedIndex::postings_map`: the raw inner map handle, absent for an
unknown term. -/
def InvertedIndex.postings_map (idx : Index) (t : Term) : Option PostMap :=
  assocFind idx t

/-- `InvertedIndex::df`: posting-list size, 0 for an unknown term. -/
def InvertedIndex.df (idx : Index) (t : Term) : Int :=
  match assocFind idx t with
  | none => 0
  | some pm => (pm.length : Int)

/-- Logical content of the index: tf of `(term, docId)`, when present. -/
def tfOf (idx : Index) (t : Term) (d : Int) : Option Int :=
  (assocFind idx t).bind (fun pm => assocFind pm d)

/-- Map invariant of the inner `unordered_map<int,int>`. -/
def PMWF (pm : PostMap) : Prop := (keysOf pm).Nodup

/-- Map invariant of `index_`, plus the fact (maintained by
`add_document`) that posting maps are never empty. -/
def IndexWF (idx : Index) : Prop :=
  (keysOf idx).Nodup ∧ ∀ p ∈ idx, PMWF p.2 ∧ p.2 ≠ []

instance : DecidablePred PMWF := fun pm => by
  unfold PMWF; infer_instance

instance : DecidablePred IndexWF := fun idx => by
  unfold IndexWF; infer_instance

/-! ### Binary serialisation (`InvertedIndex::save`), little-endian -/

/-- `write_u32`: 4 little-endian bytes (truncating to 32 bits). -/
def u32le (v : Nat) : List Nat :=
  [v % 256, v / 256 % 256, v / 65536 % 256, v / 16777216 % 256]

/-- `write_u64`: 8 little-endian bytes. -/
def u64le (v : Nat) : List Nat :=
  [v % 256, v / 256 % 256, v / 65536 % 256, v / 16777216 % 256,
   v / 4294967296 % 256, v / 1099511627776 % 256,
   v / 281474976710656 % 256, v / 72057594037927936 % 256]

/-- `write_i32`: the `int` reinterpreted as `uint32_t` (two's complement). -/
def i32le (v : Int) : List Nat :=
  u32le (v % 4294967296).toNat

/-- Body written by `InvertedIndex::save` for one term: posting count then
(docId, tf) pairs in ascending docId order. -/
def serializePostingList (pm : PostMap) : List Nat :=
  let ps := sortBy keyLt pm
  u32le ps.length ++ (ps.map (fun p => i32le p.1 ++ i32le p.2)).flatten

/-- The byte content of `postings.bin` produced by `InvertedIndex::save`:
term count, then for each term in ascending byte-lexicographic order its
length, raw bytes, and posting list. -/
def serializeIndex (idx : Index) : List Nat :=
  let terms := sortBy byteLt (keysOf idx)
  u64le terms.length ++
    (terms.map (fun t =>
      u32le t.length ++ t ++ serializePostingList ((assocFind idx t).getD []))).flatten

/-! ### Postings file parser (`InvertedIndex::load`) -/

/-- `read_u32`: consume 4 bytes little-endian or fail. -/
def readU32 : List Nat → Except String (Nat × List Nat)
  | b0 :: b1 :: b2 :: b3 :: rest =>
    .ok (b0 % 256 + b1 % 256 * 256 + b2 % 256 * 65536 + b3 % 256 * 16777216, rest)
  | _ => .error "Failed to read u32"

/-- `read_u64`: consume 8 bytes little-endian or fail. -/
def readU64 : List Nat → Except String (Nat × List Nat)
  | b0 :: b1 :: b2 :: b3 :: b4 :: b5 :: b6 :: b7 :: rest =>
    .ok (b0 % 256 + b1 % 256 * 256 + b2 % 256 * 65536 + b3 % 256 * 16777216 +
         b4 % 256 * 4294967296 + b5 % 256 * 1099511627776 +
         b6 % 256 * 281474976710656 + b7 % 256 * 72057594037927936, rest)
  | _ => .error "Failed to read u64"

/-- `read_i32`: `(std::int32_t)read_u32` — reinterpret as signed. -/
def readI32 (b : List Nat) : Except String (Int × List Nat) :=
  match readU32 b with
  | .error e => .error e
  | .ok (v, rest) =>
    .ok (if v < 2147483648 then (v : Int) else (v : Int) - 4294967296, rest)

/-- `postMap[docId] = tf`: insert or overwrite. -/
def pmSet : PostMap → Int → Int → PostMap
  | [], d, tf => [(d, tf)]
  | (k, v) :: rest, d, tf =>
    if k = d then (k, tf) :: rest else (k, v) :: pmSet rest d tf

/-- `newIndex[term]` (`operator[]`): default-insert an empty posting map
if the term is absent, leaving the map otherwise unchanged. -/
def idxEnsure (idx : Index) (t : Term) : Index :=
  match assocFind idx t with
  | some _ => idx
  | none => idx ++ [(t, [])]

/-- Write through `newIndex[term][docId] = tf`. -/
def idxSet : Index → Term → Int → Int → Index
  | [], t, d, tf => [(t, pmSet [] d tf)]
  | (u, pm) :: rest, t, d, tf =>
    if u = t then (u, pmSet pm d tf) :: rest
    else (u, pm) :: idxSet rest t d tf

/-- Inner loop of `InvertedIndex::load`: read `n` postings of one term. -/
def parsePostings (t : Term) : Nat → Index → List Nat →
    Except String (Index × List Nat)
  | 0, acc, b => .ok (acc, b)
  | n + 1, acc, b =>
    match readI32 b with
    | .error e => .error e
    | .ok (docId, b1) =>
      match readI32 b1 with
      | .error e => .error e
      | .ok (tf, b2) => parsePostings t n (idxSet acc t docId tf) b2

/-- Outer loop of `InvertedIndex::load`: read `n` terms. -/
def parseTerms : Nat → Index → List Nat → Except String Index
  | 0, acc, _ => .ok acc
  | n + 1, acc, b =>
    match readU32 b with
    | .error e => .error e
    | .ok (len, b1) =>
      if b1.length < len then .error "Failed to parse index file"
      else
        let term := b1.take len
        let b2 := b1.drop len
        match readU32 b2 with
        | .error e => .error e
        | .ok (postingCount, b3) =>
          match parsePostings term postingCount (idxEnsure acc term) b3 with
          | .error e => .error e
          | .ok (acc', b4) => parseTerms n acc' b4

/-- Pure parser for the whole `postings.bin` byte stream: builds the fresh
`newIndex`; trailing bytes are ignored (as in the source). -/
def parsePostingsFile (b : List Nat) : Except String Index :=
  match readU64 b with
  | .error e => .error e
  | .ok (termCount, rest) => parseTerms termCount [] rest

/-- `InvertedIndex::load` observed at the heap level: the pair is
(outcome, post-state of `index_`).  The C++ parses the entire file into
the local `newIndex` and assigns `index_ = std::move(newIndex)` only after
the loop finishes; any throw happens before that single mutation, so the
error post-state is the incoming index. -/
def InvertedIndex.loadRun (idx : Index) (b : List Nat) :
    Except String Unit × Index :=
  match parsePostingsFile b with
  | .error e => (.error e, idx)
  | .ok newIndex => (.ok (), newIndex)

/-! ## Candidate set operations (`search_service.cpp`)

The two-pointer loops are written with explicit fuel so that they are
structurally recursive (and hence kernel-evaluable); the fuel
`|a| + |b|` always suffices because every iteration consumes at least one
element. -/

/-- Two-pointer intersection loop of `intersect_sorted`. -/
def interLoop : Nat → List Int → List Int → List Int
  | 0, _, _ => []
  | _ + 1, [], _ => []
  | _ + 1, _ :: _, [] => []
  | fuel + 1, x :: xs, y :: ys =>
    if x = y then x :: interLoop fuel xs ys
    else if x < y then interLoop fuel xs (y :: ys)
    else interLoop fuel (x :: xs) ys

/-- `intersect_sorted`: sorts both inputs, then intersects. -/
def intersect_sorted (a b : List Int) : List Int :=
  let a' := sortBy intLt a
  let b' := sortBy intLt b
  interLoop (a'.length + b'.length) a' b'

/-- `out.push_back(v)` guarded by `out.back() != v`; `out` is accumulated
in reverse, so the back is the head. -/
def pushDedup (out : List Int) (v : Int) : List Int :=
  if out.head? = some v then out else v :: out

/-- Merge loop of `union_sorted` with back-deduplication. -/
def unionLoop : Nat → List Int → List Int → List Int → List Int
  | 0, out, _, _ => out.reverse
  | _ + 1, out, [], [] => out.reverse
  | fuel + 1, out, x :: xs, [] => unionLoop fuel (pushDedup out x) xs []
  | fuel + 1, out, [], y :: ys => unionLoop fuel (pushDedup out y) [] ys
  | fuel + 1, out, x :: xs, y :: ys =>
    if x < y then unionLoop fuel (pushDedup out x) xs (y :: ys)
    else if y < x then unionLoop fuel (pushDedup out y) (x :: xs) ys
    else unionLoop fuel (pushDedup out x) xs ys

/-- `union_sorted`: sorts both inputs, then merges with deduplication. -/
def union_sorted (a b : List Int) : List Int :=
  let a' := sortBy intLt a
  let b' := sortBy intLt b
  unionLoop (a'.length + b'.length) [] a' b'

/-! ## Query parser (`src/core/query_parser.cpp`) -/

structure ParsedQuery where
  terms : List (List Nat)
  not_terms : List (List Nat)
  is_or : Bool
deriving DecidableEq

/-- Split on the space byte, dropping empty parts (`cur` is accumulated in
reverse). -/
def splitSpaces : List Nat → List Nat → List (List Nat)
  | [], cur => if cur = [] then [] else [cur.reverse]
  | c :: rest, cur =>
    if c = 32 then
      if cur = [] then splitSpaces rest []
      else cur.reverse :: splitSpaces rest []
    else splitSpaces rest (c :: cur)

/-- `parse_query`: classify the space-separated lexemes (`OR`/`or` flag,
leading `-` negation, positives), then normalise both lists through the
tokenizer. -/
def parse_query (q : List Nat) : ParsedQuery :=
  let parts := splitSpaces q []
  let raw := parts.foldl
    (fun (acc : ParsedQuery) p =>
      if p = str "OR" ∨ p = str "or" then { acc with is_or := true }
      else if p.head? = some 45 then
        { acc with not_terms := acc.not_terms ++ [p.drop 1] }
      else { acc with terms := acc.terms ++ [p] })
    ⟨[], [], false⟩
  { terms := (raw.terms.map tokenize).flatten,
    not_terms := (raw.not_terms.map tokenize).flatten,
    is_or := raw.is_or }

/-! ## Snippet builder (`src/core/snippet.cpp`) -/

def lowerBytes (t : List Nat) : List Nat := t.map toLowerByte

/-- `std::string::find`: first offset where `needle` occurs as a
contiguous substring (0 for the empty needle). -/
def findSub (hay needle : List Nat) : Option Nat :=
  (List.range (hay.length + 1)).find? (fun i => needle.isPrefixOf (hay.drop i))

/-- `make_snippet` with the default 120-byte window: a window around the
earliest (lowercased) term hit, or the leading window if no term occurs;
the slice is taken from the original text. -/
def make_snippet (text : List Nat) (terms : List (List Nat)) : List Nat :=
  let window : Nat := 120
  let ltext := lowerBytes text
  let best := terms.foldl
    (fun (best : Option Nat) t =>
      match findSub ltext (lowerBytes t) with
      | none => best
      | some pos =>
        match best with
        | none => some pos
        | some bcur => some (min bcur pos))
    none
  match best with
  | none => text.take (min window text.length)
  | some bpos =>
    let start := if bpos > window / 3 then bpos - window / 3 else 0
    let stop := min (start + window) text.length
    (text.drop start).take (stop - start)

/-! ## Search service (`src/core/search_service.cpp`) -/

/-- The fields of `SearchService` guarded by `mu_` (the lock itself is
modelled separately for the concurrency claim). -/
structure ServiceState where
  idx : Index
  doc_text : List (Int × List Nat)
  doc_len : List (Int × Nat)
  N : Int
  avgdl : ℚ
deriving DecidableEq

/-- `map[k] = v`: insert or overwrite. -/
def assocSet [DecidableEq κ] : List (κ × ν) → κ → ν → List (κ × ν)
  | [], k, v => [(k, v)]
  | (k', v') :: rest, k, v =>
    if k' = k then (k', v) :: rest else (k', v') :: assocSet rest k v

/-- `SearchService::add_document`: update index, text store, length table,
then recompute `N_` and `avgdl_`. -/
def SearchService.add_document (st : ServiceState) (docId : Int)
    (text : List Nat) : ServiceState :=
  let idx' := InvertedIndex.add_document st.idx docId text
  let doc_text' := assocSet st.doc_text docId text
  let dl := (tokenize text).length
  let doc_len' := assocSet st.doc_len docId dl
  let N' : Int := doc_len'.length
  let total : ℚ := doc_len'.foldl (fun acc kv => acc + (kv.2 : ℚ)) 0
  { idx := idx', doc_text := doc_text', doc_len := doc_len', N := N',
    avgdl := if N' > 0 then total / (N' : ℚ) else 0 }

/-- The service constructed empty. -/
def emptyService : ServiceState := ⟨[], [], [], 0, 0⟩

/-- A service built by a sequence of `add_document` calls. -/
def buildService (ops : List (Int × List Nat)) : ServiceState :=
  ops.foldl (fun st op => SearchService.add_document st op.1 op.2) emptyService

/-- Line 238 of `search_service.cpp`: the BM25 length-normalisation
factor, guarded against division by zero:
`(avgdl_ > 0.0) ? (1.0 - b + b * (dl / avgdl_)) : 1.0` with `b = 0.75`. -/
def bm25DenomNorm (avgdl dl : ℚ) : ℚ :=
  if avgdl > 0 then 1 - (0.75 : ℚ) + 0.75 * (dl / avgdl) else 1

/-- Comparator of the final `std::sort` in `search_scored`:
`(−score, docId)` — bitwise float equality is exact equality in the
rational model. -/
def cmpScored (a b : Int × ℚ) : Bool :=
  if a.2 ≠ b.2 then decide (a.2 > b.2) else decide (a.1 < b.1)

/-- One step of the candidate-generation fold of `search_scored`
(`search_service.cpp:187-199`): the first term seeds the running result,
later terms are combined with union (OR) or intersection (AND). -/
def candidateStep (st : ServiceState) (is_or : Bool)
    (acc : Bool × List Int) (term : List Nat) : Bool × List Int :=
  let docs := InvertedIndex.search st.idx term
  if acc.1 then (false, docs)
  else (false, if is_or then union_sorted acc.2 docs
               else intersect_sorted acc.2 docs)

/-- One step of the BM25 scoring fold over the positive terms
(`search_service.cpp:241-260`), with `k1 = 1.2`: a term with `df == 0`
or `tf == 0` contributes nothing, otherwise its idf·tf part is added. -/
def bm25TermScore (log : ℚ → ℚ) (st : ServiceState) (docId : Int)
    (denom_norm : ℚ) (sc : ℚ) (term : List Nat) : ℚ :=
  let df := InvertedIndex.df st.idx term
  if df = 0 then sc
  else
    let tf := ((InvertedIndex.postings st.idx term).find?
        (fun p => decide (p.1 = docId))).elim 0 Prod.snd
    if tf = 0 then sc
    else
      let k1 : ℚ := 1.2
      let idf := log ((((st.N : ℚ) - (df : ℚ) + 1/2) / ((df : ℚ) + 1/2)) + 1)
      let tf_part := ((tf : ℚ) * (k1 + 1)) / ((tf : ℚ) + k1 * denom_norm)
      sc + idf * tf_part

/-- The per-candidate body of `search_scored`
(`search_service.cpp:225-263`): skip excluded ids and ids without a
length entry, otherwise score over the positive terms. -/
def scoreCandidate (log : ℚ → ℚ) (st : ServiceState)
    (terms : List (List Nat)) (excluded : List Int) (docId : Int) :
    Option (Int × ℚ) :=
  if docId ∈ excluded then none
  else
    match assocFind st.doc_len docId with
    | none => none
    | some dln =>
      let denom_norm : ℚ := bm25DenomNorm st.avgdl (dln : ℚ)
      some (docId, terms.foldl (bm25TermScore log st docId denom_norm) 0)

/-- `search_scored` after query parsing. -/
def search_scored_parsed (log : ℚ → ℚ) (st : ServiceState)
    (pq : ParsedQuery) : List (Int × ℚ) :=
  let fold := pq.terms.foldl (candidateStep st pq.is_or)
    (true, ([] : List Int))
  if fold.1 then []
  else
    let excluded := pq.not_terms.foldl
      (fun s t => s ++ InvertedIndex.search st.idx t) []
    sortBy cmpScored (fold.2.filterMap (scoreCandidate log st pq.terms excluded))

/-- `SearchService::search_scored`.  `log` is the C library `std::log`,
left uninterpreted over `ℚ`. -/
def SearchService.search_scored (log : ℚ → ℚ) (st : ServiceState)
    (q : List Nat) : List (Int × ℚ) :=
  search_scored_parsed log st (parse_query q)

/-- `SearchService::search`: the docIds of `search_scored`, in order. -/
def SearchService.search (log : ℚ → ℚ) (st : ServiceState) (q : List Nat) :
    List Int :=
  (SearchService.search_scored log st q).map Prod.fst

structure SearchHit where
  docId : Int
  score : ℚ
  snippet : List Nat
deriving DecidableEq

/-- `SearchService::search_with_snippets`: enrich each scored hit with a
snippet built from the stored text (empty if the id has no stored text). -/
def SearchService.search_with_snippets (log : ℚ → ℚ) (st : ServiceState)
    (q : List Nat) : List SearchHit :=
  let pq := parse_query q
  (SearchService.search_scored log st q).map (fun p =>
    { docId := p.1, score := p.2,
      snippet := make_snippet ((assocFind st.doc_text p.1).getD []) pq.terms })

/-! ## Filesystem model (persistence claims)

Files are structured values: the JSON encodings produced by jsoncpp are
deterministic and injective, so equality of `FileContent` values coincides
with byte equality of the encoded files, while `postings.bin` is kept at
raw-byte granularity (its writer is `serializeIndex`).  In `docsJsonl`,
each element is one line: `some (docId, text)` for a well-formed record,
`none` for a line the JSON reader rejects. -/

inductive FileContent
  | raw (b : List Nat)
  | metaJson (schema : Int) (n : Int) (avg : ℚ)
  | docsJsonl (rows : List (Option (Int × List Nat)))
deriving DecidableEq

/-- Directory content: file name → content (paths are relative to the
index directory). -/
def FS := String → Option FileContent

def fsSet (fs : FS) (p : String) (c : Option FileContent) : FS :=
  fun k => if k = p then c else fs k

def emptyFS : FS := fun _ => none

/-- Primitive filesystem steps taken by `save` (renames are atomic
whole-file replacements on one filesystem). -/
inductive FsOp
  | write (path : String) (content : FileContent)
  | rename (src dst : String)
  | remove (path : String)

def applyOp (fs : FS) : FsOp → FS
  | .write p c => fsSet fs p (some c)
  | .rename s d => fun k => if k = d then fs s else if k = s then none else fs k
  | .remove p => fsSet fs p none

def runOps (fs : FS) (ops : List FsOp) : FS :=
  ops.foldl applyOp fs

/-- The `docs.jsonl` content written by `save`: records ordered by
ascending docId. -/
def docsRows (st : ServiceState) : List (Option (Int × List Nat)) :=
  (sortBy intLt (keysOf st.doc_text)).map
    (fun i => some (i, (assocFind st.doc_text i).getD []))

/-- The filesystem steps of `SearchService::save`, in program order
(directory creation elided; a failure or crash executes a prefix, since
no step is inside a handler):
1-2   `write_atomic(index_meta.json)`: write tmp, rename over target;
3-4   `write_atomic(docs.jsonl)`: write tmp, rename over target;
5-6   `write_atomic(postings.bin)` with the do-nothing placeholder
      writer: commits an EMPTY `postings.bin`;
7-9   `idx_.save("postings.bin.tmp")`: write `postings.bin.tmp.tmp`,
      remove the target, rename onto `postings.bin.tmp`;
10    final rename `postings.bin.tmp` → `postings.bin`. -/
def saveOps (st : ServiceState) : List FsOp :=
  [ .write "index_meta.json.tmp" (.metaJson 1 st.N st.avgdl),
    .rename "index_meta.json.tmp" "index_meta.json",
    .write "docs.jsonl.tmp" (.docsJsonl (docsRows st)),
    .rename "docs.jsonl.tmp" "docs.jsonl",
    .write "postings.bin.tmp" (.raw []),
    .rename "postings.bin.tmp" "postings.bin",
    .write "postings.bin.tmp.tmp" (.raw (serializeIndex st.idx)),
    .remove "postings.bin.tmp",
    .rename "postings.bin.tmp.tmp" "postings.bin.tmp",
    .rename "postings.bin.tmp" "postings.bin" ]

/-- The directory after a completed `save` of state `st` over `fs`. -/
def savedFS (fs : FS) (st : ServiceState) : FS :=
  runOps fs (saveOps st)

/-- The directory after `save` of `st` is interrupted after its first `k`
steps. -/
def crashedSaveFS (fs : FS) (st : ServiceState) (k : Nat) : FS :=
  runOps fs ((saveOps st).take k)

/-! ## `SearchService::load` (heap-level transcription)

Returned pair: (outcome, state of the `SearchService` fields after the
call).  On an error the state is whatever had been assigned before the
throw, following the statement order of `search_service.cpp:376-449`:
file-existence checks and metadata parsing mutate nothing; `N_` and
`avgdl_` are overwritten right after the schema check; the document
tables are cleared and refilled row by row; `idx_.load` runs last. -/

/-- The docs.jsonl reading loop: throws on an unparseable line or a
negative docId, leaving the partially refilled tables in place. -/
def loadDocsRows : ServiceState → List (Option (Int × List Nat)) →
    Except String Unit × ServiceState
  | st, [] => (.ok (), st)
  | st, none :: _ => (.error "Failed to parse docs.jsonl line", st)
  | st, some (docId, text) :: rest =>
    if docId < 0 then (.error "Invalid docId in docs.jsonl", st)
    else
      loadDocsRows
        { st with
          doc_text := assocSet st.doc_text docId text,
          doc_len := assocSet st.doc_len docId (tokenize text).length }
        rest

def SearchService.loadRun (st : ServiceState) (fs : FS) :
    Except String Unit × ServiceState :=
  match fs "index_meta.json" with
  | none => (.error "File does not exist: index_meta.json", st)
  | some metaC =>
    match fs "docs.jsonl" with
    | none => (.error "File does not exist: docs.jsonl", st)
    | some docsC =>
      match fs "postings.bin" with
      | none => (.error "File does not exist: postings.bin", st)
      | some postC =>
        match metaC with
        | .metaJson schema n avg =>
          if schema ≠ 1 then (.error "Unsupported schema_version", st)
          else
            let st2 : ServiceState :=
              { st with N := n, avgdl := avg, doc_text := [], doc_len := [] }
            match docsC with
            | .docsJsonl rows =>
              match loadDocsRows st2 rows with
              | (.error e, st3) => (.error e, st3)
              | (.ok _, st3) =>
                match postC with
                | .raw bytes =>
                  match parsePostingsFile bytes with
                  | .error e => (.error e, st3)
                  | .ok newIdx => (.ok (), { st3 with idx := newIdx })
                | _ => (.error "Failed to parse index file", st3)
            | _ => (.error "Failed to parse docs.jsonl line", st2)
        | _ => (.error "Failed to parse index_meta.json", st)

/-! ## Lock discipline of `load` (`search_service.cpp:376-449`)

The abstract event trace of one `SearchService::load` call, in statement
order: `std::unique_lock lock(mu_)` is the first statement of the
function body and is released by its destructor at return, with every
check, parse and mutation in between. -/

inductive LoadStep
  | acquireExclusive
  | requireFiles
  | parseMeta
  | setCorpusStats
  | parseDocs
  | loadPostings
  | releaseExclusive
deriving DecidableEq, BEq

def loadLockTrace : List LoadStep :=
  [.acquireExclusive, .requireFiles, .parseMeta, .setCorpusStats,
   .parseDocs, .loadPostings, .releaseExclusive]

/-- The steps executed while the exclusive lock is held. -/
def heldSteps (tr : List LoadStep) : List LoadStep :=
  ((tr.dropWhile (fun s => !(s == .acquireExclusive))).drop 1).takeWhile
    (fun s => !(s == .releaseExclusive))

/-! ## Ordering lemmas for the result comparator -/

theorem cmpScored_asym : ∀ a b, cmpScored a b = true → cmpScored b a = false := by
  intro a b h
  unfold cmpScored at h ⊢
  by_cases h1 : a.2 = b.2
  · rw [if_neg (not_ne_iff.mpr h1), decide_eq_true_iff] at h
    rw [if_neg (not_ne_iff.mpr h1.symm)]
    simp only [decide_eq_false_iff_not]
    omega
  · rw [if_pos h1, decide_eq_true_iff] at h
    rw [if_pos (Ne.symm h1)]
    simp only [decide_eq_false_iff_not]
    exact not_lt_of_gt h

theorem cmpScored_trans : ∀ a b c, cmpScored a b = true → cmpScored b c = true →
    cmpScored a c = true := by
  intro a b c hab hbc
  unfold cmpScored at hab hbc ⊢
  by_cases h1 : a.2 = b.2 <;> by_cases h2 : b.2 = c.2
  · rw [if_neg (not_ne_iff.mpr h1), decide_eq_true_iff] at hab
    rw [if_neg (not_ne_iff.mpr h2), decide_eq_true_iff] at hbc
    rw [if_neg (not_ne_iff.mpr (h1.trans h2)), decide_eq_true_iff]
    omega
  · rw [if_neg (not_ne_iff.mpr h1), decide_eq_true_iff] at hab
    rw [if_pos h2, decide_eq_true_iff] at hbc
    rw [if_pos (show a.2 ≠ c.2 from fun hh => h2 (h1.symm.trans hh)),
      decide_eq_true_iff]
    exact h1 ▸ hbc
  · rw [if_pos h1, decide_eq_true_iff] at hab
    rw [if_neg (not_ne_iff.mpr h2), decide_eq_true_iff] at hbc
    rw [if_pos (show a.2 ≠ c.2 from fun hh => h1 (hh.trans h2.symm)),
      decide_eq_true_iff]
    exact h2 ▸ hab
  · rw [if_pos h1, decide_eq_true_iff] at hab
    rw [if_pos h2, decide_eq_true_iff] at hbc
    have hac : a.2 > c.2 := gt_trans hab hbc
    rw [if_pos (ne_of_gt hac), decide_eq_true_iff]
    exact hac

/-- The non-strict order that `search_scored` results satisfy pairwise:
higher score first, ascending docId among equal scores. -/
def scoredLe (a b : Int × ℚ) : Prop :=
  b.2 < a.2 ∨ (a.2 = b.2 ∧ a.1 ≤ b.1)

theorem sortBy_cmpScored_sorted (l : List (Int × ℚ)) :
    (sortBy cmpScored l).Pairwise scoredLe := by
  refine (sortBy_pairwise cmpScored cmpScored_asym cmpScored_trans l).imp ?_
  intro a b hab
  unfold cmpScored at hab
  by_cases h1 : b.2 = a.2
  · rw [if_neg (not_ne_iff.mpr h1), decide_eq_false_iff_not] at hab
    exact Or.inr ⟨h1.symm, by omega⟩
  · rw [if_pos h1, decide_eq_false_iff_not] at hab
    rcases lt_or_gt_of_ne h1 with hh | hh
    · exact Or.inl hh
    · exact absurd hh hab

/-! ## Claim theorems -/

/-- C6: for every service state and query (and any interpretation of the
float logarithm), `search(q)` is exactly the sequence of docIds obtained
by projecting the first component out of `search_scored(q)`, in the same
order — `SearchService::search` is implemented as that projection. -/
theorem search_eq_searchScored_proj (log : ℚ → ℚ) (st : ServiceState)
    (q : List Nat) :
    SearchService.search log st q =
      (SearchService.search_scored log st q).map Prod.fst := rfl

/-- C7: for every service state and query, the result of `search_scored`
is pairwise ordered by descending score, with equal scores (exact
equality in the rational model, matching bitwise IEEE equality) broken by
ascending docId — the final `std::sort` uses the comparator
`(−score, docId)`. -/
theorem searchScored_sorted (log : ℚ → ℚ) (st : ServiceState) (q : List Nat) :
    (SearchService.search_scored log st q).Pairwise scoredLe := by
  have key : ∀ (c : Prop) (h : Decidable c) (l : List (Int × ℚ)),
      List.Pairwise scoredLe (@ite _ c h [] (sortBy cmpScored l)) := by
    intro c hdec l
    by_cases hc : c
    · rw [if_pos hc]; exact List.Pairwise.nil
    · rw [if_neg hc]; exact sortBy_cmpScored_sorted l
  simp only [SearchService.search_scored, search_scored_parsed]
  exact key _ _ _

/-- C4: whenever the parsed positive-term list of a query is empty (for
example a query of only NOT terms, or only `OR` lexemes), `search`,
`search_scored` and `search_with_snippets` all return the empty sequence
(and, being total functions, raise no error). -/
theorem search_empty_positives (log : ℚ → ℚ) (st : ServiceState)
    (q : List Nat) (h : (parse_query q).terms = []) :
    SearchService.search_scored log st q = [] ∧
    SearchService.search log st q = [] ∧
    SearchService.search_with_snippets log st q = [] := by
  have h1 : SearchService.search_scored log st q = [] := by
    simp [SearchService.search_scored, search_scored_parsed, h]
  refine ⟨h1, ?_, ?_⟩
  · simp [SearchService.search, h1]
  · simp [SearchService.search_with_snippets, h1]

/-- Witness for C4 at the concrete query `"-foo OR"` (one NOT term and an
`OR` lexeme, no positives) against a one-document service. -/
theorem search_empty_positives_witness :
    (parse_query (str "-foo OR")).terms = [] ∧
    (SearchService.search_scored (fun x => x)
        (buildService [(1, str "apple")]) (str "-foo OR") = [] ∧
      SearchService.search (fun x => x)
        (buildService [(1, str "apple")]) (str "-foo OR") = [] ∧
      SearchService.search_with_snippets (fun x => x)
        (buildService [(1, str "apple")]) (str "-foo OR") = []) :=
  ⟨by decide, search_empty_positives (fun x => x)
    (buildService [(1, str "apple")]) (str "-foo OR") (by decide)⟩

/-- C10: `InvertedIndex::load` only assigns the freshly parsed map after
the whole file has parsed; if parsing fails (truncated counts, short term
bytes, short postings), the call errors and the index observable through
`search`, `postings`, `postings_map` and `df` is the one from before the
call. -/
theorem invertedIndex_load_error_preserves (idx : Index) (b : List Nat)
    (e : String) (h : (InvertedIndex.loadRun idx b).1 = .error e) :
    (InvertedIndex.loadRun idx b).2 = idx ∧
    (∀ t, InvertedIndex.search (InvertedIndex.loadRun idx b).2 t =
        InvertedIndex.search idx t) ∧
    (∀ t, InvertedIndex.postings (InvertedIndex.loadRun idx b).2 t =
        InvertedIndex.postings idx t) ∧
    (∀ t, InvertedIndex.postings_map (InvertedIndex.loadRun idx b).2 t =
        InvertedIndex.postings_map idx t) ∧
    (∀ t, InvertedIndex.df (InvertedIndex.loadRun idx b).2 t =
        InvertedIndex.df idx t) := by
  unfold InvertedIndex.loadRun at h ⊢
  cases hp : parsePostingsFile b with
  | error e' =>
    exact ⟨rfl, fun _ => rfl, fun _ => rfl, fun _ => rfl, fun _ => rfl⟩
  | ok newIdx =>
    rw [hp] at h
    simp at h

/-- Witness for C10: a nonempty index and a truncated postings file (3
bytes, shorter than the leading u64 term count). -/
theorem invertedIndex_load_error_preserves_witness :
    (InvertedIndex.loadRun [(str "a", [(1, 2)])] [1, 0, 0]).1 =
      .error "Failed to read u64" ∧
    ((InvertedIndex.loadRun [(str "a", [(1, 2)])] [1, 0, 0]).2 =
        [(str "a", [(1, 2)])] ∧
      (∀ t, InvertedIndex.search
          (InvertedIndex.loadRun [(str "a", [(1, 2)])] [1, 0, 0]).2 t =
          InvertedIndex.search [(str "a", [(1, 2)])] t) ∧
      (∀ t, InvertedIndex.postings
          (InvertedIndex.loadRun [(str "a", [(1, 2)])] [1, 0, 0]).2 t =
          InvertedIndex.postings [(str "a", [(1, 2)])] t) ∧
      (∀ t, InvertedIndex.postings_map
          (InvertedIndex.loadRun [(str "a", [(1, 2)])] [1, 0, 0]).2 t =
          InvertedIndex.postings_map [(str "a", [(1, 2)])] t) ∧
      (∀ t, InvertedIndex.df
          (InvertedIndex.loadRun [(str "a", [(1, 2)])] [1, 0, 0]).2 t =
          InvertedIndex.df [(str "a", [(1, 2)])] t)) :=
  ⟨rfl, invertedIndex_load_error_preserves [(str "a", [(1, 2)])]
    [1, 0, 0] "Failed to read u64" rfl⟩

/-- The one-document service used by the persistence counterexamples. -/
def oneDocService : ServiceState := buildService [(1, str "apple")]

/-- A directory with valid metadata and a `docs.jsonl` whose only record
has `docId = -1`. -/
def negDocIdDir : FS :=
  fsSet (fsSet (fsSet emptyFS
    "index_meta.json" (some (.metaJson 1 0 0)))
    "docs.jsonl" (some (.docsJsonl [some (-1, [])])))
    "postings.bin" (some (.raw []))

/-- C1 counterexample: `load` is not transactional.  Loading a directory
whose `docs.jsonl` holds a record with `docId = -1` into a service with
one document fails, yet afterwards the observable `N` is `0` where it was
`1` before the call: the corpus stats were overwritten before the error
was detected. -/
theorem load_not_transactional_counterexample :
    (SearchService.loadRun oneDocService negDocIdDir).1 =
      .error "Invalid docId in docs.jsonl" ∧
    oneDocService.N = 1 ∧
    (SearchService.loadRun oneDocService negDocIdDir).2.N = 0 ∧
    (SearchService.loadRun oneDocService negDocIdDir).2 ≠ oneDocService :=
  ⟨rfl, rfl, rfl, by decide⟩

/-- C1 amended: `load` leaves the service state untouched for every error
detected up to and including schema validation — a missing file,
metadata that does not parse, or an unsupported schema version.  (Errors
detected later — an unparseable `docs.jsonl` line, a negative docId, or a
truncated `postings.bin` — strike after `N_`/`avgdl_` and the document
tables have already been overwritten, as the counterexample shows.) -/
theorem load_early_error_preserves (st : ServiceState) (fs : FS)
    (h : fs "index_meta.json" = none ∨ fs "docs.jsonl" = none ∨
      fs "postings.bin" = none ∨
      (∀ s n a, fs "index_meta.json" ≠ some (.metaJson s n a)) ∨
      (∃ s n a, fs "index_meta.json" = some (.metaJson s n a) ∧ s ≠ 1)) :
    (SearchService.loadRun st fs).2 = st ∧
    ∃ e, (SearchService.loadRun st fs).1 = .error e := by
  unfold SearchService.loadRun
  rcases h with h | h | h | h | h
  · rw [h]
    exact ⟨rfl, _, rfl⟩
  · cases hm : fs "index_meta.json" with
    | none => exact ⟨rfl, _, rfl⟩
    | some mc =>
      rw [h]
      exact ⟨rfl, _, rfl⟩
  · cases hm : fs "index_meta.json" with
    | none => exact ⟨rfl, _, rfl⟩
    | some mc =>
      cases hd : fs "docs.jsonl" with
      | none => exact ⟨rfl, _, rfl⟩
      | some dc =>
        rw [h]
        exact ⟨rfl, _, rfl⟩
  · cases hm : fs "index_meta.json" with
    | none => exact ⟨rfl, _, rfl⟩
    | some mc =>
      cases hd : fs "docs.jsonl" with
      | none => exact ⟨rfl, _, rfl⟩
      | some dc =>
        cases hp : fs "postings.bin" with
        | none => exact ⟨rfl, _, rfl⟩
        | some pc =>
          cases mc with
          | raw bb => exact ⟨rfl, _, rfl⟩
          | metaJson sc nn aa => exact absurd hm (h sc nn aa)
          | docsJsonl rows => exact ⟨rfl, _, rfl⟩
  · obtain ⟨sc, nn, aa, hm, hs⟩ := h
    rw [hm]
    cases hd : fs "docs.jsonl" with
    | none => exact ⟨rfl, _, rfl⟩
    | some dc =>
      cases hp : fs "postings.bin" with
      | none => exact ⟨rfl, _, rfl⟩
      | some pc =>
        simp only [if_pos hs]
        exact ⟨trivial, _, rfl⟩

/-- Witness for the amended C1 at an empty directory (all three files
missing) and a one-document service. -/
theorem load_early_error_preserves_witness :
    (emptyFS "index_meta.json" = none ∨ emptyFS "docs.jsonl" = none ∨
      emptyFS "postings.bin" = none ∨
      (∀ s n a, emptyFS "index_meta.json" ≠ some (.metaJson s n a)) ∨
      (∃ s n a, emptyFS "index_meta.json" = some (.metaJson s n a) ∧ s ≠ 1)) ∧
    ((SearchService.loadRun oneDocService emptyFS).2 = oneDocService ∧
      ∃ e, (SearchService.loadRun oneDocService emptyFS).1 = .error e) :=
  ⟨Or.inl rfl, load_early_error_preserves oneDocService emptyFS (Or.inl rfl)⟩

/-- C8 counterexample: in `SearchService::load` the file-existence
checks, metadata/docs parsing and postings loading are all executed while
the exclusive lock is held — `std::unique_lock lock(mu_)` is the first
statement of the function — so no parsing happens outside the writer
lock and there is no separate swap-only exclusive section. -/
theorem load_parses_under_lock_counterexample :
    LoadStep.requireFiles ∈ heldSteps loadLockTrace ∧
    LoadStep.parseMeta ∈ heldSteps loadLockTrace ∧
    LoadStep.parseDocs ∈ heldSteps loadLockTrace ∧
    LoadStep.loadPostings ∈ heldSteps loadLockTrace := by
  have h : heldSteps loadLockTrace =
      [LoadStep.requireFiles, LoadStep.parseMeta, LoadStep.setCorpusStats,
       LoadStep.parseDocs, LoadStep.loadPostings] := rfl
  rw [h]
  refine ⟨?_, ?_, ?_, ?_⟩ <;> simp

/-- C8 amended: `load` acquires the exclusive lock on entry, releases it
on return, and performs every check, parse, corpus-stat update and
postings load inside that exclusive section; concurrent readers are
simply blocked for the whole call (which is why they cannot observe a
mixture, not because of a lock-free parse phase). -/
theorem load_lock_discipline :
    loadLockTrace.head? = some LoadStep.acquireExclusive ∧
    loadLockTrace.getLast? = some LoadStep.releaseExclusive ∧
    heldSteps loadLockTrace =
      [LoadStep.requireFiles, LoadStep.parseMeta, LoadStep.setCorpusStats,
       LoadStep.parseDocs, LoadStep.loadPostings] := by decide

/-- `map[k] = v` never produces the empty map. -/
theorem assocSet_ne_nil [DecidableEq κ] (l : List (κ × ν)) (k : κ) (v : ν) :
    assocSet l k v ≠ [] := by
  cases l with
  | nil => simp [assocSet]
  | cons p rest =>
    obtain ⟨k', v'⟩ := p
    unfold assocSet
    by_cases h : k' = k <;> simp [h]

/-- C9 counterexample: the state reached by `add_document(1, ".")` (a
document that tokenises to zero tokens) has `N = 1` but `avgdl = 0`, so
`avgdl == 0.0` does not imply `N == 0`: the claimed equivalence fails in
the only-if direction. -/
theorem avgdl_zero_with_positive_N_counterexample :
    (buildService [(1, str ".")]).N = 1 ∧
    (buildService [(1, str ".")]).avgdl = 0 := by
  constructor
  · rfl
  · show ((0 : ℚ) + ((0 : ℕ) : ℚ)) / (((1 : ℕ) : ℤ) : ℚ) = 0
    norm_num

/-- C9 amended, part 1 helper: `N = 0 → avgdl = 0` is an invariant of
`add_document`-reachable states. -/
theorem buildService_N_zero_avgdl_zero :
    ∀ (ops : List (Int × List Nat)) (st : ServiceState),
      (st.N = 0 → st.avgdl = 0) →
      ((ops.foldl (fun s op => SearchService.add_document s op.1 op.2) st).N = 0 →
        (ops.foldl (fun s op => SearchService.add_document s op.1 op.2) st).avgdl = 0) := by
  intro ops
  induction ops with
  | nil => intro st hst; exact hst
  | cons op rest ih =>
    intro st _
    simp only [List.foldl_cons]
    refine ih _ ?_
    intro hN0
    exfalso
    have hne := assocSet_ne_nil st.doc_len op.1 (tokenize op.2).length
    have hlen : (assocSet st.doc_len op.1 (tokenize op.2).length).length = 0 := by
      have : ((assocSet st.doc_len op.1 (tokenize op.2).length).length : Int) = 0 := hN0
      exact_mod_cast this
    exact hne (List.length_eq_zero.mp hlen)

/-- C9 amended: in every state reachable by a sequence of `add_document`
calls, `N == 0` implies `avgdl == 0` (the converse fails when every
indexed document tokenises to zero tokens), and whenever `avgdl ≤ 0` the
BM25 length-normalisation factor used by `search_scored` is exactly `1`,
so scoring never divides by a zero `avgdl`. -/
theorem avgdl_zero_guard (ops : List (Int × List Nat)) :
    ((buildService ops).N = 0 → (buildService ops).avgdl = 0) ∧
    (∀ dl : ℚ, (buildService ops).avgdl ≤ 0 →
      bm25DenomNorm (buildService ops).avgdl dl = 1) := by
  constructor
  · exact buildService_N_zero_avgdl_zero ops emptyService (fun _ => rfl)
  · intro dl hle
    unfold bm25DenomNorm
    rw [if_neg (not_lt.mpr hle)]

/-- Witness for the amended C9 at the empty build sequence and `dl = 5`. -/
theorem avgdl_zero_guard_witness :
    ((buildService []).N = 0 ∧ (buildService []).avgdl ≤ 0) ∧
    ((buildService []).avgdl = 0 ∧ bm25DenomNorm (buildService []).avgdl 5 = 1) :=
  ⟨⟨rfl, by decide⟩,
    ⟨(avgdl_zero_guard []).1 rfl, (avgdl_zero_guard []).2 5 (by decide)⟩⟩

/-- The service state of the crash-safety scenario (mirrors the test
fixture: one document, then a committed `save`). -/
def crashState : ServiceState := buildService [(1, str "original document")]

/-- C2 (bug): `save` first runs `write_atomic(postings.bin)` with a
do-nothing writer — the placeholder the source itself calls "not useful" —
which COMMITS an empty `postings.bin` (steps 5-6 of `saveOps`) before
`idx_.save` writes the real bytes.  A save interrupted (or failing in
`idx_.save`) right after that commit leaves `postings.bin` empty: the
previously committed postings are destroyed, not preserved.  The third
conjunct shows the previously committed content was nonempty. -/
theorem save_crash_clobbers_postings :
    crashedSaveFS (savedFS emptyFS crashState) crashState 6 "postings.bin" =
      some (.raw []) ∧
    savedFS emptyFS crashState "postings.bin" =
      some (.raw (serializeIndex crashState.idx)) ∧
    serializeIndex crashState.idx ≠ [] := by decide

/-! ## C3: the postings serialisation depends only on logical content -/

theorem keyLt_asym : ∀ a b : Int × Int, keyLt a b = true → keyLt b a = false := by
  intro a b h
  simp only [keyLt, decide_eq_true_iff] at h
  simp only [keyLt, decide_eq_false_iff_not]
  omega

theorem keyLt_trans : ∀ a b c : Int × Int, keyLt a b = true → keyLt b c = true →
    keyLt a c = true := by
  intro a b c hab hbc
  simp only [keyLt, decide_eq_true_iff] at hab hbc ⊢
  omega

theorem pairwise_keys_of_nodup {l : List (κ × ν)} (h : (keysOf l).Nodup) :
    l.Pairwise (fun a b => a.1 ≠ b.1) :=
  List.pairwise_map.mp h

theorem nodup_keys_of_pairwise {l : List (κ × ν)}
    (h : l.Pairwise (fun a b => a.1 ≠ b.1)) : (keysOf l).Nodup :=
  List.pairwise_map.mpr h

/-- Sorting a posting map with distinct docIds by the save comparator
yields a strictly key-sorted list. -/
theorem sortBy_keyLt_strict {pm : PostMap} (h : PMWF pm) :
    (sortBy keyLt pm).Pairwise (fun a b => a.1 < b.1) := by
  have h1 := sortBy_pairwise keyLt keyLt_asym keyLt_trans pm
  have h2 : (keysOf (sortBy keyLt pm)).Nodup := by
    have := (sortBy_perm keyLt pm).map Prod.fst
    exact (this.nodup_iff).mpr h
  have h3 := List.Pairwise.and h1 (pairwise_keys_of_nodup h2)
  refine h3.imp ?_
  intro a b hab
  obtain ⟨hle, hne⟩ := hab
  simp only [keyLt, decide_eq_false_iff_not] at hle
  omega

/-- A key is in the key list iff `find` succeeds (no uniqueness needed). -/
theorem assocFind_isSome_iff [DecidableEq κ] (l : List (κ × ν)) (d : κ) :
    (assocFind l d).isSome = true ↔ d ∈ keysOf l := by
  induction l with
  | nil => simp [assocFind, keysOf]
  | cons p rest ih =>
    obtain ⟨k, w⟩ := p
    unfold assocFind
    by_cases hkd : k = d
    · subst hkd
      simp [keysOf]
    · simp only [if_neg hkd, keysOf, List.map_cons, List.mem_cons]
      rw [ih]
      constructor
      · intro hm; exact Or.inr hm
      · intro hm
        rcases hm with hm | hm
        · exact absurd hm.symm hkd
        · exact hm

/-- Two strictly key-sorted association lists with the same lookup
function are equal. -/
theorem sorted_assoc_eq {l1 l2 : List (Int × Int)}
    (h1 : l1.Pairwise (fun a b => a.1 < b.1))
    (h2 : l2.Pairwise (fun a b => a.1 < b.1))
    (hf : ∀ d, assocFind l1 d = assocFind l2 d) : l1 = l2 := by
  have hn1 : (keysOf l1).Nodup :=
    nodup_keys_of_pairwise (h1.imp fun hab => ne_of_lt hab)
  have hn2 : (keysOf l2).Nodup :=
    nodup_keys_of_pairwise (h2.imp fun hab => ne_of_lt hab)
  refine sorted_mem_eq keyLt keyLt_asym l1 l2 ?_ ?_ ?_
  · exact h1.imp fun hab => by simp [keyLt]; omega
  · exact h2.imp fun hab => by simp [keyLt]; omega
  · intro x
    rw [← assocFind_eq_some_iff_of_nodup hn1 (d := x.1) (v := x.2),
      ← assocFind_eq_some_iff_of_nodup hn2 (d := x.1) (v := x.2), hf x.1]

/-- If every (term, docId) cell of `a` agrees with `b` and `a` satisfies
the map invariant (in particular no empty posting maps), a term present
in `a` is present in `b`. -/
theorem tf_content_isSome {a b : Index} (ha : IndexWF a)
    (hc : ∀ t d, tfOf a t d = tfOf b t d) (t : Term)
    (hs : (assocFind a t).isSome = true) : (assocFind b t).isSome = true := by
  obtain ⟨pm, hpm⟩ := Option.isSome_iff_exists.mp hs
  have hmem : (t, pm) ∈ a := (assocFind_eq_some_iff_of_nodup ha.1).mp hpm
  have hwf := ha.2 _ hmem
  cases pm with
  | nil => exact absurd rfl hwf.2
  | cons p rest =>
    obtain ⟨d0, v0⟩ := p
    have hval : tfOf a t d0 = some v0 := by
      unfold tfOf
      rw [hpm]
      simp [assocFind]
    rw [hc t d0] at hval
    unfold tfOf at hval
    cases hs2 : assocFind b t with
    | none => rw [hs2] at hval; simp at hval
    | some pm2 => simp

/-- Helper: pointwise equal functions map a list to equal lists. -/
theorem map_congr_mem {l : List α} {f g : α → β}
    (h : ∀ a ∈ l, f a = g a) : l.map f = l.map g := by
  induction l with
  | nil => rfl
  | cons x xs ih =>
    simp only [List.map_cons]
    rw [h x (List.mem_cons_self _ _), ih (fun a ha => h a (List.mem_cons_of_mem _ ha))]

/-- C3: the bytes of `postings.bin` are a function of the logical index
content alone.  `InvertedIndex::save` emits terms in ascending
byte-lexicographic order and each term's postings in ascending docId
order, so two indexes whose (term, docId) → tf content agree — in
particular two indexes built by the same `add_document` sequence, however
their hash maps arrange it — serialise to byte-identical files. -/
theorem serializeIndex_content_determined (idx1 idx2 : Index)
    (h1 : IndexWF idx1) (h2 : IndexWF idx2)
    (hc : ∀ t d, tfOf idx1 t d = tfOf idx2 t d) :
    serializeIndex idx1 = serializeIndex idx2 := by
  have hc' : ∀ t d, tfOf idx2 t d = tfOf idx1 t d := fun t d => (hc t d).symm
  have hterms : sortBy byteLt (keysOf idx1) = sortBy byteLt (keysOf idx2) := by
    refine sorted_mem_eq byteLt byteLt_asym _ _
      (sortBy_pairwise_strict byteLt byteLt_asym byteLt_trans byteLt_total _ h1.1)
      (sortBy_pairwise_strict byteLt byteLt_asym byteLt_trans byteLt_total _ h2.1)
      ?_
    intro t
    rw [mem_sortBy, mem_sortBy, ← assocFind_isSome_iff, ← assocFind_isSome_iff]
    exact ⟨tf_content_isSome h1 hc t, tf_content_isSome h2 hc' t⟩
  have hpost : ∀ t ∈ sortBy byteLt (keysOf idx1),
      sortBy keyLt ((assocFind idx1 t).getD []) =
        sortBy keyLt ((assocFind idx2 t).getD []) := by
    intro t ht
    have ht1 : (assocFind idx1 t).isSome = true :=
      (assocFind_isSome_iff _ _).mpr (mem_sortBy.mp ht)
    have ht2 : (assocFind idx2 t).isSome = true := tf_content_isSome h1 hc t ht1
    obtain ⟨pm1, hpm1⟩ := Option.isSome_iff_exists.mp ht1
    obtain ⟨pm2, hpm2⟩ := Option.isSome_iff_exists.mp ht2
    have hw1 : PMWF pm1 :=
      (h1.2 _ ((assocFind_eq_some_iff_of_nodup h1.1).mp hpm1)).1
    have hw2 : PMWF pm2 :=
      (h2.2 _ ((assocFind_eq_some_iff_of_nodup h2.1).mp hpm2)).1
    rw [hpm1, hpm2]
    simp only [Option.getD_some]
    refine sorted_assoc_eq (sortBy_keyLt_strict hw1) (sortBy_keyLt_strict hw2) ?_
    intro d
    have e1 : assocFind (sortBy keyLt pm1) d = assocFind pm1 d :=
      assocFind_congr_perm
        (((sortBy_perm keyLt pm1).map Prod.fst).nodup_iff.mpr hw1)
        (sortBy_perm keyLt pm1) d
    have e2 : assocFind (sortBy keyLt pm2) d = assocFind pm2 d :=
      assocFind_congr_perm
        (((sortBy_perm keyLt pm2).map Prod.fst).nodup_iff.mpr hw2)
        (sortBy_perm keyLt pm2) d
    rw [e1, e2]
    have hcd := hc t d
    unfold tfOf at hcd
    rw [hpm1, hpm2] at hcd
    simpa using hcd
  show u64le (sortBy byteLt (keysOf idx1)).length ++
      ((sortBy byteLt (keysOf idx1)).map (fun t =>
        u32le t.length ++ t ++
          serializePostingList ((assocFind idx1 t).getD []))).flatten =
    u64le (sortBy byteLt (keysOf idx2)).length ++
      ((sortBy byteLt (keysOf idx2)).map (fun t =>
        u32le t.length ++ t ++
          serializePostingList ((assocFind idx2 t).getD []))).flatten
  rw [← hterms]
  have hmapped : (sortBy byteLt (keysOf idx1)).map (fun t =>
        u32le t.length ++ t ++
          serializePostingList ((assocFind idx1 t).getD [])) =
      (sortBy byteLt (keysOf idx1)).map (fun t =>
        u32le t.length ++ t ++
          serializePostingList ((assocFind idx2 t).getD [])) := by
    refine map_congr_mem ?_
    intro t ht
    unfold serializePostingList
    rw [hpost t ht]
  rw [hmapped]

/-- Index `{"b" → {2→1, 1→3}, "a" → {5→2}}` in one arrangement. -/
def c3IdxA : Index := [([98], [(2, 1), (1, 3)]), ([97], [(5, 2)])]

/-- The same logical content with both maps arranged differently. -/
def c3IdxB : Index := [([97], [(5, 2)]), ([98], [(1, 3), (2, 1)])]

theorem c3_content_eq : ∀ t d, tfOf c3IdxA t d = tfOf c3IdxB t d := by
  intro t d
  by_cases h98 : ([98] : List Nat) = t
  · subst h98
    have ea : tfOf c3IdxA [98] d =
        assocFind [((2 : Int), (1 : Int)), ((1 : Int), (3 : Int))] d := rfl
    have eb : tfOf c3IdxB [98] d =
        assocFind [((1 : Int), (3 : Int)), ((2 : Int), (1 : Int))] d := rfl
    rw [ea, eb]
    by_cases hd2 : (2 : Int) = d
    · subst hd2; decide
    · by_cases hd1 : (1 : Int) = d
      · subst hd1; decide
      · simp [assocFind, hd2, hd1]
  · by_cases h97 : ([97] : List Nat) = t
    · subst h97; rfl
    · have ea : tfOf c3IdxA t d = none := by
        unfold tfOf c3IdxA
        simp [assocFind, h98, h97]
      have eb : tfOf c3IdxB t d = none := by
        unfold tfOf c3IdxB
        simp [assocFind, h98, h97]
      rw [ea, eb]

/-- Witness for C3: the two concrete arrangements above satisfy the
hypotheses and serialise to identical bytes. -/
theorem serializeIndex_content_determined_witness :
    (IndexWF c3IdxA ∧ IndexWF c3IdxB ∧
      (∀ t d, tfOf c3IdxA t d = tfOf c3IdxB t d)) ∧
    serializeIndex c3IdxA = serializeIndex c3IdxB :=
  ⟨⟨by decide, by decide, c3_content_eq⟩,
    serializeIndex_content_determined c3IdxA c3IdxB (by decide) (by decide)
      c3_content_eq⟩

/-! ## C5: duplicated positive terms -/

theorem intLt_asym : ∀ a b : Int, intLt a b = true → intLt b a = false := by
  intro a b h
  simp only [intLt, decide_eq_true_iff] at h
  simp only [intLt, decide_eq_false_iff_not]
  omega

theorem intLt_trans : ∀ a b c : Int, intLt a b = true → intLt b c = true →
    intLt a c = true := by
  intro a b c hab hbc
  simp only [intLt, decide_eq_true_iff] at hab hbc ⊢
  omega

theorem intLt_total : ∀ a b : Int, a ≠ b → intLt a b = true ∨ intLt b a = true := by
  intro a b h
  simp only [intLt, decide_eq_true_iff]
  omega

/-- `find` hits are members (first match, no uniqueness needed). -/
theorem assocFind_some_mem [DecidableEq κ] {l : List (κ × ν)} {d : κ} {v : ν}
    (h : assocFind l d = some v) : (d, v) ∈ l := by
  induction l with
  | nil => simp [assocFind] at h
  | cons p rest ih =>
    obtain ⟨k, w⟩ := p
    unfold assocFind at h
    by_cases hkd : k = d
    · subst hkd
      rw [if_pos rfl] at h
      injection h with h
      rw [← h]
      exact List.mem_cons_self _ _
    · rw [if_neg hkd] at h
      exact List.mem_cons_of_mem _ (ih h)

/-- Sorting an already strictly sorted list is the identity. -/
theorem sortBy_sorted_id (r : α → α → Bool) :
    ∀ l : List α, l.Pairwise (fun a b => r a b = true) → sortBy r l = l := by
  intro l
  induction l with
  | nil => intro _; rfl
  | cons x xs ih =>
    intro h
    rcases List.pairwise_cons.mp h with ⟨hx, hxs⟩
    have : sortBy r (x :: xs) = insertBy r x (sortBy r xs) := rfl
    rw [this, ih hxs]
    cases xs with
    | nil => rfl
    | cons y ys =>
      unfold insertBy
      rw [if_pos (hx y (List.mem_cons_self _ _))]

/-- The two-pointer intersection of a list with itself is the identity. -/
theorem interLoop_self : ∀ (fuel : Nat) (l : List Int), l.length ≤ fuel →
    interLoop fuel l l = l := by
  intro fuel
  induction fuel with
  | zero =>
    intro l hl
    rw [List.length_eq_zero.mp (Nat.le_zero.mp hl)]
    rfl
  | succ n ih =>
    intro l hl
    cases l with
    | nil => rfl
    | cons x xs =>
      show (if x = x then x :: interLoop n xs xs
        else if x < x then interLoop n xs (x :: xs)
        else interLoop n (x :: xs) xs) = x :: xs
      rw [if_pos rfl, ih xs (by simpa using Nat.succ_le_succ_iff.mp hl)]

/-- The deduplicating merge of a strictly sorted list with itself appends
it to the reversed accumulator. -/
theorem unionLoop_self : ∀ (fuel : Nat) (l out : List Int), l.length ≤ fuel →
    l.Pairwise (fun a b => a < b) →
    (∀ y ∈ l, ¬ out.head? = some y) →
    unionLoop fuel out l l = out.reverse ++ l := by
  intro fuel
  induction fuel with
  | zero =>
    intro l out hl _ _
    rw [List.length_eq_zero.mp (Nat.le_zero.mp hl)]
    simp [unionLoop]
  | succ n ih =>
    intro l out hl hsort hout
    cases l with
    | nil => simp [unionLoop]
    | cons x xs =>
      rcases List.pairwise_cons.mp hsort with ⟨hx, hxs⟩
      show (if x < x then unionLoop n (pushDedup out x) xs (x :: xs)
        else if x < x then unionLoop n (pushDedup out x) (x :: xs) xs
        else unionLoop n (pushDedup out x) xs xs) = out.reverse ++ x :: xs
      rw [if_neg (lt_irrefl x), if_neg (lt_irrefl x)]
      have hpush : pushDedup out x = x :: out := by
        unfold pushDedup
        rw [if_neg (hout x (List.mem_cons_self _ _))]
      rw [hpush, ih xs (x :: out) (by simpa using Nat.succ_le_succ_iff.mp hl) hxs ?_]
      · simp
      · intro y hy hhead
        simp only [List.head?_cons, Option.some_inj] at hhead
        exact absurd (hhead ▸ hx y hy) (lt_irrefl y)

theorem filterMap_map_of_pointwise {g1 g2 : α → Option β} {f : β → β}
    (h : ∀ a, g2 a = Option.map f (g1 a)) :
    ∀ l : List α, l.filterMap g2 = (l.filterMap g1).map f := by
  intro l
  induction l with
  | nil => rfl
  | cons x xs ih =>
    rw [List.filterMap_cons, List.filterMap_cons]
    cases hg : g1 x with
    | none =>
      have hg2 : g2 x = none := by rw [h x, hg]; rfl
      rw [hg2]
      exact ih
    | some b =>
      have hg2 : g2 x = some (f b) := by rw [h x, hg]; rfl
      rw [hg2]
      show f b :: List.filterMap g2 xs = List.map f (b :: List.filterMap g1 xs)
      rw [List.map_cons, ih]

theorem insertBy_map_comm {r : α → α → Bool} {f : α → α}
    (hr : ∀ a b, r (f a) (f b) = r a b) (x : α) :
    ∀ l : List α, insertBy r (f x) (l.map f) = (insertBy r x l).map f := by
  intro l
  induction l with
  | nil => rfl
  | cons y ys ih =>
    show (if r (f x) (f y) then f x :: f y :: ys.map f
      else f y :: insertBy r (f x) (ys.map f)) =
      (if r x y then x :: y :: ys else y :: insertBy r x ys).map f
    rw [hr x y]
    by_cases h : r x y
    · rw [if_pos h, if_pos h]
      rfl
    · rw [if_neg h, if_neg h, List.map_cons, ih]

theorem sortBy_map_comm {r : α → α → Bool} {f : α → α}
    (hr : ∀ a b, r (f a) (f b) = r a b) :
    ∀ l : List α, sortBy r (l.map f) = (sortBy r l).map f := by
  intro l
  induction l with
  | nil => rfl
  | cons x xs ih =>
    show insertBy r (f x) (sortBy r (xs.map f)) = (insertBy r x (sortBy r xs)).map f
    rw [ih, insertBy_map_comm hr]

/-- Doubling every score commutes with the result comparator. -/
theorem cmpScored_double (a b : Int × ℚ) :
    cmpScored (a.1, a.2 + a.2) (b.1, b.2 + b.2) = cmpScored a b := by
  unfold cmpScored
  by_cases heq : a.2 = b.2
  · rw [if_neg (not_ne_iff.mpr (show a.2 + a.2 = b.2 + b.2 by rw [heq])),
      if_neg (not_ne_iff.mpr heq)]
  · rw [if_pos (show a.2 + a.2 ≠ b.2 + b.2 from fun hh => heq (by linarith)),
      if_pos heq]
    exact decide_eq_decide.mpr ⟨fun h => by simp only [gt_iff_lt] at h ⊢; linarith,
      fun h => by simp only [gt_iff_lt] at h ⊢; linarith⟩

/-- `InvertedIndex::search` output is strictly ascending when the posting
map respects the map invariant. -/
theorem invertedIndex_search_sorted {idx : Index}
    (hw : ∀ p ∈ idx, PMWF p.2) (t : Term) :
    (InvertedIndex.search idx t).Pairwise (fun a b => intLt a b = true) := by
  unfold InvertedIndex.search
  cases hf : assocFind idx t with
  | none => exact List.Pairwise.nil
  | some pm =>
    have hpm : PMWF pm := (hw _ (assocFind_some_mem hf))
    exact sortBy_pairwise_strict intLt intLt_asym intLt_trans intLt_total _ hpm

/-- Folding the candidate generator over `[t, t]` gives the same
candidates as over `[t]`: self-intersection and self-union are both the
identity on the sorted posting list. -/
theorem candidates_self {idx : Index} (hw : ∀ p ∈ idx, PMWF p.2)
    (t : Term) (flag : Bool) :
    (if flag then union_sorted (InvertedIndex.search idx t)
        (InvertedIndex.search idx t)
      else intersect_sorted (InvertedIndex.search idx t)
        (InvertedIndex.search idx t)) = InvertedIndex.search idx t := by
  have hsorted := invertedIndex_search_sorted hw t
  have hid : sortBy intLt (InvertedIndex.search idx t) =
      InvertedIndex.search idx t := sortBy_sorted_id intLt _ hsorted
  have hstrict : (InvertedIndex.search idx t).Pairwise (fun a b => a < b) :=
    hsorted.imp fun hab => by
      simpa only [intLt, decide_eq_true_iff] using hab
  cases flag with
  | false =>
    show intersect_sorted _ _ = _
    unfold intersect_sorted
    rw [hid]
    exact interLoop_self _ _ (by omega)
  | true =>
    show union_sorted _ _ = _
    unfold union_sorted
    rw [hid]
    rw [unionLoop_self _ _ [] (by omega) hstrict (by intro y _ h; simp at h)]
    rfl

/-- Each scoring step adds a term contribution that does not depend on
the accumulator. -/
theorem bm25TermScore_shift (log : ℚ → ℚ) (st : ServiceState) (docId : Int)
    (dn : ℚ) (t : List Nat) (sc : ℚ) :
    bm25TermScore log st docId dn sc t =
      sc + bm25TermScore log st docId dn 0 t := by
  unfold bm25TermScore
  by_cases hdf : InvertedIndex.df st.idx t = 0
  · rw [if_pos hdf, if_pos hdf]
    ring
  · rw [if_neg hdf, if_neg hdf]
    by_cases htf : ((InvertedIndex.postings st.idx t).find?
        (fun p => decide (p.1 = docId))).elim 0 Prod.snd = 0
    · rw [if_pos htf, if_pos htf]
      ring
    · rw [if_neg htf, if_neg htf]
      ring

/-- Scoring the duplicated term list `[t, t]` doubles the score of the
singleton list `[t]`. -/
theorem scoreCandidate_double (log : ℚ → ℚ) (st : ServiceState)
    (t : List Nat) (excluded : List Int) (d : Int) :
    scoreCandidate log st [t, t] excluded d =
      Option.map (fun p => (p.1, p.2 + p.2))
        (scoreCandidate log st [t] excluded d) := by
  unfold scoreCandidate
  by_cases hex : d ∈ excluded
  · rw [if_pos hex, if_pos hex]
    rfl
  · rw [if_neg hex, if_neg hex]
    cases hdl : assocFind st.doc_len d with
    | none => rfl
    | some dln =>
      simp only [Option.map_some]
      have h1 : List.foldl
          (bm25TermScore log st d (bm25DenomNorm st.avgdl (dln : ℚ))) 0 [t] =
          bm25TermScore log st d (bm25DenomNorm st.avgdl (dln : ℚ)) 0 t := rfl
      have h2 : List.foldl
          (bm25TermScore log st d (bm25DenomNorm st.avgdl (dln : ℚ))) 0 [t, t] =
          bm25TermScore log st d (bm25DenomNorm st.avgdl (dln : ℚ))
            (bm25TermScore log st d (bm25DenomNorm st.avgdl (dln : ℚ)) 0 t) t := rfl
      rw [h1, h2, bm25TermScore_shift]
      exact congrArg _ (by ring_nf)

/-- C5 on parsed queries: duplicating the single positive term keeps the
candidate set and order and doubles every score. -/
theorem searchScoredParsed_duplicate (log : ℚ → ℚ) (st : ServiceState)
    (hw : ∀ p ∈ st.idx, PMWF p.2) (t : Term) (nt : List (List Nat))
    (flag : Bool) :
    search_scored_parsed log st ⟨[t, t], nt, flag⟩ =
      (search_scored_parsed log st ⟨[t], nt, flag⟩).map
        (fun p => (p.1, p.2 + p.2)) := by
  unfold search_scored_parsed
  have hfold1 : List.foldl (candidateStep st flag) (true, ([] : List Int)) [t] =
      (false, InvertedIndex.search st.idx t) := by
    simp [candidateStep]
  have hfold2 : List.foldl (candidateStep st flag) (true, ([] : List Int)) [t, t] =
      (false, InvertedIndex.search st.idx t) := by
    have hstep : candidateStep st flag (false, InvertedIndex.search st.idx t) t =
        (false, InvertedIndex.search st.idx t) := by
      unfold candidateStep
      simp only [if_neg (by simp : ¬((false, InvertedIndex.search st.idx t).1 = true))]
      rw [candidates_self hw t flag]
    calc List.foldl (candidateStep st flag) (true, ([] : List Int)) [t, t]
        = candidateStep st flag (candidateStep st flag (true, []) t) t := rfl
      _ = candidateStep st flag (false, InvertedIndex.search st.idx t) t := by
          rw [show candidateStep st flag (true, []) t =
            (false, InvertedIndex.search st.idx t) from by simp [candidateStep]]
      _ = (false, InvertedIndex.search st.idx t) := hstep
  rw [hfold1, hfold2]
  simp only [Bool.false_eq_true, if_false]
  rw [filterMap_map_of_pointwise
    (fun d => scoreCandidate_double log st t _ d) (InvertedIndex.search st.idx t),
    sortBy_map_comm (fun a b => cmpScored_double a b)]

/-- C5 amended: a positive term occurring twice leaves the candidate
docIds and their order unchanged, but the scoring loop iterates over the
duplicate as well, so every score is doubled relative to the query with
the term occurring once (the sequences coincide only when every score is
zero): duplicates are idempotent for the docId sequence, not for the
scores. -/
theorem searchScored_duplicate_term (log : ℚ → ℚ) (st : ServiceState)
    (hw : ∀ p ∈ st.idx, PMWF p.2) (q q' : List Nat) (t : Term)
    (nt : List (List Nat)) (flag : Bool)
    (hq : parse_query q = ⟨[t, t], nt, flag⟩)
    (hq' : parse_query q' = ⟨[t], nt, flag⟩) :
    SearchService.search_scored log st q =
      (SearchService.search_scored log st q').map
        (fun p => (p.1, p.2 + p.2)) ∧
    SearchService.search log st q = SearchService.search log st q' := by
  have h1 : SearchService.search_scored log st q =
      (SearchService.search_scored log st q').map
        (fun p => (p.1, p.2 + p.2)) := by
    unfold SearchService.search_scored
    rw [hq, hq']
    exact searchScoredParsed_duplicate log st hw t nt flag
  refine ⟨h1, ?_⟩
  unfold SearchService.search
  rw [h1, List.map_map]
  exact map_congr_mem (fun a _ => rfl)

/-- The token `"apple"` as bytes. -/
def appleTok : Term := [97, 112, 112, 108, 101]

/-- C5 counterexample: on the one-document service, the queries
`"apple apple"` and `"apple"` return the same docIds in the same order
but different scores (4/3 versus 8/3 under `log := id`; over the real
`std::log` the same doubling holds since `ln(4/3) ≠ 0`), so duplicate
positive terms are not idempotent for `search_scored`. -/
theorem searchScored_duplicate_counterexample :
    SearchService.search (fun x => x) oneDocService (str "apple apple") =
      SearchService.search (fun x => x) oneDocService (str "apple") ∧
    SearchService.search_scored (fun x => x) oneDocService (str "apple apple") ≠
      SearchService.search_scored (fun x => x) oneDocService (str "apple") := by
  have hq : parse_query (str "apple apple") =
      ⟨[appleTok, appleTok], [], false⟩ := by decide
  have hq' : parse_query (str "apple") = ⟨[appleTok], [], false⟩ := by decide
  have hw : ∀ p ∈ oneDocService.idx, PMWF p.2 := by decide
  have hdbl : SearchService.search_scored (fun x => x) oneDocService
      (str "apple apple") =
      (SearchService.search_scored (fun x => x) oneDocService
        (str "apple")).map (fun p => (p.1, p.2 + p.2)) := by
    unfold SearchService.search_scored
    rw [hq, hq']
    exact searchScoredParsed_duplicate (fun x => x) oneDocService hw appleTok []
      false
  have hsearch : InvertedIndex.search oneDocService.idx appleTok = [1] := by
    decide
  have hdl : assocFind oneDocService.doc_len 1 = some 1 := by decide
  have hl1 : SearchService.search_scored (fun x => x) oneDocService
      (str "apple") =
      [(1, bm25TermScore (fun x => x) oneDocService 1
        (bm25DenomNorm oneDocService.avgdl ((1 : ℕ) : ℚ)) 0 appleTok)] := by
    unfold SearchService.search_scored
    rw [hq']
    unfold search_scored_parsed
    have hfold : List.foldl (candidateStep oneDocService false)
        (true, ([] : List Int)) [appleTok] = (false, [1]) := by
      simp [candidateStep, hsearch]
    rw [hfold]
    simp only [Bool.false_eq_true, if_false, List.foldl_nil]
    have hg : scoreCandidate (fun x => x) oneDocService [appleTok] [] 1 =
        some (1, bm25TermScore (fun x => x) oneDocService 1
          (bm25DenomNorm oneDocService.avgdl ((1 : ℕ) : ℚ)) 0 appleTok) := by
      unfold scoreCandidate
      rw [if_neg (by simp)]
      rw [hdl]
      rfl
    rw [List.filterMap_cons, hg]
    rfl
  have havg : oneDocService.avgdl = 1 := by
    show ((0 : ℚ) + ((1 : ℕ) : ℚ)) / (((1 : ℕ) : ℤ) : ℚ) = 1
    norm_num
  have hdn : bm25DenomNorm oneDocService.avgdl ((1 : ℕ) : ℚ) = 1 := by
    rw [havg]
    unfold bm25DenomNorm
    norm_num
  have hdf : InvertedIndex.df oneDocService.idx appleTok = 1 := by decide
  have hfind : (InvertedIndex.postings oneDocService.idx appleTok).find?
      (fun p => decide (p.1 = (1 : Int))) = some (1, 1) := by decide
  have hN : oneDocService.N = 1 := by decide
  have hs0 : bm25TermScore (fun x => x) oneDocService 1
      (bm25DenomNorm oneDocService.avgdl ((1 : ℕ) : ℚ)) 0 appleTok ≠ 0 := by
    unfold bm25TermScore
    rw [hdf, hdn, hfind, hN]
    norm_num
  constructor
  · unfold SearchService.search
    rw [hdbl, List.map_map]
    exact map_congr_mem (fun a _ => rfl)
  · intro heq
    rw [hdbl, hl1] at heq
    simp only [List.map_cons, List.map_nil, List.cons.injEq, Prod.mk.injEq] at heq
    have hzero : bm25TermScore (fun x => x) oneDocService 1
        (bm25DenomNorm oneDocService.avgdl ((1 : ℕ) : ℚ)) 0 appleTok = 0 := by
      have := heq.1.2
      linarith
    exact hs0 hzero

/-- Witness for the amended C5 at the one-document service, queries
`"apple apple"` and `"apple"`, and `log := id`. -/
theorem searchScored_duplicate_term_witness :
    ((∀ p ∈ oneDocService.idx, PMWF p.2) ∧
      parse_query (str "apple apple") = ⟨[appleTok, appleTok], [], false⟩ ∧
      parse_query (str "apple") = ⟨[appleTok], [], false⟩) ∧
    (SearchService.search_scored (fun x => x) oneDocService
        (str "apple apple") =
      (SearchService.search_scored (fun x => x) oneDocService
        (str "apple")).map (fun p => (p.1, p.2 + p.2)) ∧
    SearchService.search (fun x => x) oneDocService (str "apple apple") =
      SearchService.search (fun x => x) oneDocService (str "apple")) :=
  ⟨⟨by decide, by decide, by decide⟩,
    searchScored_duplicate_term (fun x => x) oneDocService (by decide)
      (str "apple apple") (str "apple") appleTok [] false (by decide)
      (by decide)⟩
